import Mathlib

/-!
Verification of the chimaera multi-repo CLI (src/git.js and the unnamed
entry-point script src/unnamed/part_000).

The JavaScript code is shallowly embedded: JS strings are Lean `String`
(with character-list splitting helpers mirroring `String.prototype.split`),
a JS value that may be `undefined` is an `Option`, nodegit calls that are
external to the repository (`Graph.aheadBehind`, `Graph.descendantOf`,
`semver.inc`, `npm publish` output) are oracle function parameters, and the
mutating steps of the commands (file writes, process spawns, symlink
removal/creation) are recorded as an explicit list of `Effect`s instead of
being performed.
-/

namespace Chimaera

/-! ### JS string helpers -/

/-- JS `s.split(sep)` for a single-character separator `sep`, on the
character list of the string.  `"".split(c)` is `[""]`, a leading or
trailing separator produces an empty segment, exactly as in JS. -/
def splitAtChar (sep : Char) : List Char → List (List Char)
  | [] => [[]]
  | c :: cs =>
    if c = sep then [] :: splitAtChar sep cs
    else
      match splitAtChar sep cs with
      | [] => [[c]]
      | y :: ys => (c :: y) :: ys

/-- JS `s.split('...')` (the separator used for branch strings), on the
character list of the string: scans left to right, splitting at each
non-overlapping occurrence of three consecutive dots. -/
def splitDots : List Char → List (List Char)
  | [] => [[]]
  | '.' :: '.' :: '.' :: rest => [] :: splitDots rest
  | c :: rest =>
    match splitDots rest with
    | [] => [[c]]
    | y :: ys => (c :: y) :: ys

/-- JS `s.padStart(2, ' ')` (src/git.js line 52). -/
def padStart2 (s : String) : String :=
  if s.length < 2 then String.mk (List.replicate (2 - s.length) ' ') ++ s else s

/-- JS template-literal rendering of a possibly-`undefined` string:
`` `${x}` `` prints `"undefined"` when `x` is `undefined`. -/
def jsTemplate : Option String → String
  | some s => s
  | none => "undefined"

/-- JS template-literal rendering of a possibly-`null` string (the result of
`semver.inc` is `null` on failure): `` `${x}` `` prints `"null"`. -/
def jsTemplateNull : Option String → String
  | some s => s
  | none => "null"

/-- JS `Array.prototype.join` element rendering: `undefined` elements are
rendered as the empty string. -/
def jsJoinElem : Option String → String
  | some s => s
  | none => ""

/-- Model of `nodePath.join` on two segments. -/
def pathJoin (a b : String) : String := a ++ "/" ++ b

/-! ### src/git.js — getStatusFlag -/

/-- The boolean status predicates of one nodegit working-tree status entry,
as read by `getStatusFlag` (src/git.js lines 43-53). -/
structure StatusInput where
  isConflicted : Bool
  isDeleted : Bool
  isIgnored : Bool
  isModified : Bool
  isNew : Bool
  isRenamed : Bool
  isTypechange : Bool
deriving DecidableEq

/-- src/git.js `getStatusFlag` (lines 43-53): a chain of independent `if`
statements, each overwriting the previously chosen flag, then
`padStart(2, ' ')`. -/
def getStatusFlag (x : StatusInput) : String :=
  let y := ""
  let y := if x.isConflicted then "C" else y
  let y := if x.isDeleted then "D" else y
  let y := if x.isIgnored then "I" else y
  let y := if x.isModified then "M" else y
  let y := if x.isNew then "??" else y
  let y := if x.isRenamed then "R" else y
  let y := if x.isTypechange then "T" else y
  padStart2 y

/-- The spec's reading of the flag computation: the predicate/flag pairs in
the fixed priority order C, D, I, M, ?? (new), R, T. -/
def statusFlagPriority (x : StatusInput) : List (Bool × String) :=
  [(x.isConflicted, "C"), (x.isDeleted, "D"), (x.isIgnored, "I"), (x.isModified, "M"),
   (x.isNew, "??"), (x.isRenamed, "R"), (x.isTypechange, "T")]

/-- The spec's reading of the flag computation: the last flag in the fixed
order whose predicate matches (empty when none matches). -/
def lastMatchingFlag (x : StatusInput) : String :=
  (statusFlagPriority x).foldl (fun acc e => if e.1 then e.2 else acc) ""

/-! ### src/git.js — getRemoteUrl -/

/-- src/git.js `getRemoteUrl` (lines 158-166): reads the remote's URL and
returns `url.split('@')[1]`.  The input is `none` when the repository,
the remote, or its URL cannot be read (the surrounding `tryCatch` in
`getInfo` turns the raised error into `undefined`); the output is `none`
exactly when JS would produce `undefined`. -/
def getRemoteUrl (url : Option String) : Option String :=
  url.bind (fun u => ((splitAtChar '@' u.data).get? 1).map String.mk)

/-! ### src/git.js — getCurrentAheadBehind -/

/-- src/git.js `getCurrentAheadBehind` (lines 68-77): diverges into the
repo, HEAD's target and the upstream's target, and calls
`nodegit.Graph.aheadBehind` only if all of them exist, returning the
empty object `{}` (here `none`) otherwise.  `graphAheadBehind` is the
external `nodegit.Graph.aheadBehind` oracle, whose two counts are
non-negative by its interface (modelled with `Nat`); `headTarget` and
`upstreamTarget` are the two resolved target commits, `none` when the
corresponding resolution failed. -/
def getCurrentAheadBehind (graphAheadBehind : String → String → Nat × Nat)
    (headTarget upstreamTarget : Option String) : Option (Nat × Nat) :=
  match headTarget, upstreamTarget with
  | some h, some u => some (graphAheadBehind h u)
  | _, _ => none

/-! ### Data model: manifest and module snapshot -/

/-- The fields of a parsed `package.json` manifest that the program reads.
`dependencies` and `devDependencies` are the key lists of the two
dependency maps in manifest-declared order (an absent map is the empty
list, matching the `_.get(..., {})` defaults); `nopack` is the
distribution-exclusion marker (absent means `false`). -/
structure Package where
  name : Option String
  version : Option String
  nopack : Bool
  dependencies : List String
  devDependencies : List String
deriving DecidableEq

/-- The fields of a parsed `package-lock.json` that the program touches. -/
structure PackageLock where
  version : Option String
deriving DecidableEq

/-- The module info snapshot built by `getInfo` (part_000 lines 111-139).
A field whose producing operation failed is `none` (the `tryCatch`
wrappers); `branch` is the composite `"<local>...<upstream>"` string,
empty when unavailable; `ahead_behind` is `none` both for the empty
object `{}` and for a failed call; `status` is the ordered
`(path, flag)` sequence. -/
structure Info where
  path : String
  fmt_path : String
  origin_url : Option String
  tags : Option (List String)
  branch : String
  status : List (String × String)
  ahead_behind : Option (Nat × Nat)
  package : Option Package
  package_lock : Option PackageLock
deriving DecidableEq

/-- Derived snapshot field `module` (part_000 line 125): `package.name`,
`undefined` when the manifest is absent. -/
def Info.module (m : Info) : Option String := m.package.bind Package.name

/-- Derived snapshot field `version` (part_000 line 126): `package.version`. -/
def Info.version (m : Info) : Option String := m.package.bind Package.version

/-- Derived snapshot field `vmodule` (part_000 lines 127-133):
`[name, version].join('@')`. -/
def Info.vmodule (m : Info) : String :=
  jsJoinElem m.module ++ "@" ++ jsJoinElem m.version

/-- Derived snapshot field `semver` (part_000 lines 134-137): the version
tag string `` `v${package.version}` ``. -/
def Info.semver (m : Info) : String := "v" ++ jsTemplate m.version

/-! ### Module locator (part_000 findModules, lines 69-90) -/

/-- A filesystem tree: a plain file, or a directory with a named entry
list.  A real filesystem has distinct entry names within one directory;
`wfFS` below captures that. -/
inductive FSTree where
  | file : FSTree
  | dir : List (String × FSTree) → FSTree

/-- Resolve a path (a list of entry names) in the tree, as the OS does for
`fse.readdir`'s argument.  `none` models a nonexistent path. -/
def resolve : FSTree → List String → Option FSTree
  | t, [] => some t
  | .file, _ :: _ => none
  | .dir es, n :: rest =>
    match es.find? (fun e => e.1 == n) with
    | some e => resolve e.2 rest
    | none => none

/-- rubico `_.uniq` with an explicit seen-set accumulator: keeps the first
occurrence of each element. -/
def jsUniqAux {α : Type} [BEq α] (seen : List α) : List α → List α
  | [] => []
  | x :: xs => if seen.contains x then jsUniqAux seen xs else x :: jsUniqAux (x :: seen) xs

/-- rubico `_.uniq`: de-duplication keeping first occurrences. -/
def jsUniq {α : Type} [BEq α] (l : List α) : List α := jsUniqAux [] l

mutual

/-- part_000 `findModules` (lines 69-90) below one readable directory at
path `p`: if the listing contains both `.git` and `package.json` the
directory is a module and the recursion stops, else the recursion
descends into every entry and the flattened result is de-duplicated.
A file contributes nothing (its `readdir` fails and the `tryCatch`
filter drops it). -/
def findModulesGo : FSTree → List String → List (List String)
  | .file, _ => []
  | .dir es, p =>
    if (es.map Prod.fst).contains ".git" && (es.map Prod.fst).contains "package.json" then
      [p]
    else
      jsUniq (findModulesKids es p)

/-- The flattened concatenation of the recursive `findModules` results of
a directory's entries (the `_.map` + `_.flattenAll` of lines 76-88). -/
def findModulesKids : List (String × FSTree) → List String → List (List String)
  | [], _ => []
  | e :: rest, p => findModulesGo e.2 (p ++ [e.1]) ++ findModulesKids rest p

end

/-- part_000 `findModules` at the top level: each root path is resolved
(an unreadable root is skipped), scanned, and the flattened result is
de-duplicated by path identity. -/
def findModules (fs : FSTree) (paths : List (List String)) : List (List String) :=
  jsUniq ((paths.map (fun p =>
    match resolve fs p with
    | some t => findModulesGo t p
    | none => [])).flatten)

/-- Distinctness of a directory's entry names. -/
def nodupKeys : List String → Bool
  | [] => true
  | n :: rest => !rest.contains n && nodupKeys rest

mutual

/-- Well-formedness of a filesystem tree: every directory's entry names
are distinct, recursively (true of a real filesystem). -/
def wfFS : FSTree → Bool
  | .file => true
  | .dir es => nodupKeys (es.map Prod.fst) && wfKids es

/-- Well-formedness of every subtree in an entry list. -/
def wfKids : List (String × FSTree) → Bool
  | [] => true
  | e :: rest => wfFS e.2 && wfKids rest

end

/-! ### Action engine gating predicates (part_000 merge/push/dist) -/

/-- The merge command's gating predicate (part_000 lines 272-278):
`branch.split('...')` has exactly 2 parts, `status` is empty,
`ahead_behind.behind > 0` and `ahead_behind.ahead == 0`.  A missing
`ahead_behind` (the empty object or a failed call) fails both numeric
conjuncts, because in JS `undefined > 0` and `undefined === 0` are both
false. -/
def mergePredicate (m : Info) : Bool :=
  ((splitDots m.branch.data).length == 2)
  && m.status.isEmpty
  && (match m.ahead_behind with
      | some ab => decide (0 < ab.2)
      | none => false)
  && (match m.ahead_behind with
      | some ab => ab.1 == 0
      | none => false)

/-- The push command's gating predicate (part_000 lines 299-303):
`branch.split('...')` has exactly 2 parts, `ahead_behind.ahead > 0` and
`ahead_behind.behind == 0`. -/
def pushPredicate (m : Info) : Bool :=
  ((splitDots m.branch.data).length == 2)
  && (match m.ahead_behind with
      | some ab => decide (0 < ab.1)
      | none => false)
  && (match m.ahead_behind with
      | some ab => ab.2 == 0
      | none => false)

/-- The dist command's gating predicate (part_000 lines 432-449).
`descendantOfHead` is the oracle for `git.descendantOfHead` (src/git.js
lines 90-107), taking the ref name and the module path.  The second
conjunct is the `_.switch` of lines 434-444: when the computed version
tag is in the tag set the descendant check decides, otherwise the
conjunct is `false`. -/
def distPredicate (descendantOfHead : String → String → Bool) (m : Info) : Bool :=
  (m.branch == "master...origin/master")
  && (if (m.tags.getD []).contains m.semver then descendantOfHead m.semver m.path else false)
  && m.status.isEmpty
  && (match m.ahead_behind with
      | some ab => ab.2 == 0
      | none => false)
  && (match m.ahead_behind with
      | some ab => decide (0 ≤ ab.1)
      | none => false)
  && !(match m.package with
      | some p => p.nopack
      | none => false)

/-- The dist predicate as claim C1 states it (used only to exhibit the
divergence): the tag conjunct short-circuits to `true` when the computed
version tag is absent from the tag set. -/
def distPredicateClaimed (descendantOfHead : String → String → Bool) (m : Info) : Bool :=
  (m.branch == "master...origin/master")
  && (if (m.tags.getD []).contains m.semver then descendantOfHead m.semver m.path else true)
  && m.status.isEmpty
  && (match m.ahead_behind with
      | some ab => ab.2 == 0
      | none => false)
  && (match m.ahead_behind with
      | some ab => decide (0 ≤ ab.1)
      | none => false)
  && !(match m.package with
      | some p => p.nopack
      | none => false)

/-! ### Dependency linker (part_000 link, lines 553-574) -/

/-- The JS object key under which `link`'s `moduleStore` stores a snapshot:
`a[b.module] = b` stringifies an `undefined` name to `"undefined"`. -/
def storeKey (b : Info) : String := jsTemplate b.module

/-- The `moduleStore` built by `link` (lines 559-562), as the insertion
sequence of a JS object: later assignments to the same key overwrite
earlier ones. -/
def mkStore (infos : List Info) : List (String × Info) :=
  infos.map (fun b => (storeKey b, b))

/-- JS property lookup in the store: the last value assigned to the key,
`none` when the key was never assigned. -/
def storeLookup (s : List (String × Info)) (n : String) : Option Info :=
  (s.reverse.find? (fun e => e.1 == n)).map Prod.snd

/-- The key list of the manifest's regular dependency map
(`_.get('package.dependencies', {})` then `Object.keys`). -/
def dependencyKeys (m : Info) : List String :=
  match m.package with
  | some p => p.dependencies
  | none => []

/-- The key list of the manifest's development dependency map. -/
def devDependencyKeys (m : Info) : List String :=
  match m.package with
  | some p => p.devDependencies
  | none => []

/-- The flattened dependency-name list of one snapshot: regular
dependencies first, then development dependencies (lines 564-569). -/
def depKeys (m : Info) : List String := dependencyKeys m ++ devDependencyKeys m

/-- The `symlinks` field computed by `link` (lines 563-572): each declared
dependency name is looked up in the store and the misses are dropped
(`_.filter(_.exists)`). -/
def symlinks (infos : List Info) (m : Info) : List Info :=
  (depKeys m).filterMap (storeLookup (mkStore infos))

/-! ### Effect traces for push / dist / install / link (claim C7) -/

/-- One external mutation the program can perform: a manifest or lockfile
write (`writePackage`/`writePackageLock`, recorded with the structured
content that would be serialized), an external process invocation
(`execa`/`pRetry(execa)`), a path removal (`fse.remove`) or a symlink
creation (`fse.ensureSymlink`). -/
inductive Effect where
  | writePackageFile : String → Option Package → Effect
  | writePackageLockFile : String → Option PackageLock → Effect
  | exec : String → List String → Effect
  | fseRemove : String → Effect
  | ensureSymlink : String → String → Effect
deriving DecidableEq

/-- The `--git-dir` argument used by every spawned git process. -/
def gitDirArg (p : String) : String := "--git-dir=" ++ pathJoin p ".git"

/-- The `--work-tree` argument used by every spawned git process. -/
def workTreeArg (p : String) : String := "--work-tree=" ++ p

/-- The record produced by `bumpVersion` (part_000 lines 339-415): the
original snapshot extended with `next_version`, the recomputed
`vmodule`, and the version-bumped manifest and lockfile. -/
structure DistItem where
  info : Info
  next_version : Option String
  vmodule : String
  package : Option Package
  package_lock : Option PackageLock
deriving DecidableEq

/-- part_000 `bumpVersion` (lines 339-415).  `semverInc` is the external
`semver.inc` oracle (`none` models `null`).  Computes `next_version`,
`vmodule` and the updated manifest/lockfile, then — unless `is_dry_run`
is set — writes the manifest, writes the lockfile when present, and
spawns `git add .`, `git commit -m <next>`, `git tag v<next>` and
`git push -f origin v<next>`.  Under dry-run the whole mutating series
is replaced by `_.id` and no effect is produced. -/
def bumpVersion (semverInc : Option String → String → Option String)
    (versionBump : String) (isDryRun : Bool) (m : Info) : DistItem × List Effect :=
  let next := semverInc m.version versionBump
  let vmodule := jsJoinElem m.module ++ "@" ++ jsJoinElem next
  let pkg := m.package.map (fun p => { p with version := next })
  let lock := m.package_lock.map (fun l => { l with version := next })
  let effects : List Effect :=
    if isDryRun then []
    else
      [Effect.writePackageFile (pathJoin m.path "package.json") pkg]
      ++ (match m.package_lock with
          | some _ => [Effect.writePackageLockFile (pathJoin m.path "package-lock.json") lock]
          | none => [])
      ++ [Effect.exec "git" [gitDirArg m.path, workTreeArg m.path, "add", "."],
          Effect.exec "git" [gitDirArg m.path, workTreeArg m.path, "commit", "-m", jsTemplateNull next],
          Effect.exec "git" [gitDirArg m.path, workTreeArg m.path, "tag", "v" ++ jsTemplateNull next],
          Effect.exec "git" [gitDirArg m.path, workTreeArg m.path, "push", "-f", "origin",
            "v" ++ jsTemplateNull next]]
  (⟨m, next, vmodule, pkg, lock⟩, effects)

/-- The push command (part_000 lines 294-336) as an effect trace: filter by
`pushPredicate`, print one `origin_url(localBranch)` item per selected
module (the informational output), and spawn `git push` per selected
module unless dry-run. -/
def pushRun (infos : List Info) (isDryRun : Bool) : List Effect × List String :=
  let selected := infos.filter pushPredicate
  ((selected.map (fun m =>
      if isDryRun then []
      else [Effect.exec "git" [gitDirArg m.path, workTreeArg m.path, "push"]])).flatten,
   selected.map (fun m =>
     jsTemplate m.origin_url ++ "("
       ++ jsTemplate (((splitDots m.branch.data).get? 0).map String.mk) ++ ")"))

/-- The install command (part_000 lines 517-550) as an effect trace: no
filter, print one module-name item per module, and spawn
`npm i --cache=<module>/.npm -C <module> --no-package-lock` per module
unless dry-run. -/
def installRun (infos : List Info) (isDryRun : Bool) : List Effect × List String :=
  ((infos.map (fun m =>
      if isDryRun then []
      else [Effect.exec "npm" ["i", "--cache=" ++ pathJoin m.path ".npm", "-C", m.path,
        "--no-package-lock"]])).flatten,
   infos.map (fun m => jsTemplate m.module))

/-- The per-module block printed by `link` (part_000 lines 595-607). -/
def linkFmt (m : Info) (syms : List Info) : String :=
  (match syms.get? 0 with
   | some first => "┌ " ++ first.fmt_path ++ " (" ++ jsTemplate first.module ++ ")"
   | none => "┌ undefined (undefined)")
  ++ String.join ((syms.drop 1).map (fun a => "\n├ " ++ a.fmt_path ++ " (" ++ jsTemplate a.module ++ ")"))
  ++ "\n└┄► " ++ pathJoin m.fmt_path "node_modules"

/-- The link command (part_000 lines 553-609) as an effect trace: compute
`symlinks` per module, keep the modules with a non-empty list, then —
unless dry-run — for each kept module and each of its symlink targets
remove `<module>/node_modules/<depName>` and create the symlink; finally
print one block per kept module (in both modes). -/
def linkRun (infos : List Info) (isDryRun : Bool) : List Effect × List String :=
  let withSyms := infos.map (fun m => (m, symlinks infos m))
  let selected := withSyms.filter (fun x => decide (0 < x.2.length))
  ((if isDryRun then []
    else ((selected.map (fun x =>
      (x.2.map (fun s =>
        [Effect.fseRemove (pathJoin (pathJoin x.1.path "node_modules") (jsTemplate s.module)),
         Effect.ensureSymlink s.path
           (pathJoin (pathJoin x.1.path "node_modules") (jsTemplate s.module))])).flatten)).flatten)),
   selected.map (fun x => linkFmt x.1 x.2))

/-- The dist command (part_000 lines 418-495) as an effect trace: filter by
`distPredicate`, run `bumpVersion` per selected module, then per module
either print the would-be `"+ <vmodule>"` line (dry-run) or spawn
`npm publish <path>` and print its stdout (`publishOut` is the external
publish-output oracle). -/
def distRun (descendantOfHead : String → String → Bool)
    (semverInc : Option String → String → Option String)
    (publishOut : DistItem → String) (infos : List Info) (versionBump : String)
    (isDryRun : Bool) : List Effect × List String :=
  let selected := infos.filter (distPredicate descendantOfHead)
  let bumped := selected.map (bumpVersion semverInc versionBump isDryRun)
  ((bumped.map Prod.snd).flatten
     ++ (bumped.map (fun b =>
          if isDryRun then []
          else [Effect.exec "npm" ["publish", b.1.info.path]])).flatten,
   bumped.map (fun b => if isDryRun then "+ " ++ b.1.vmodule else publishOut b.1))

/-! ### Concrete snapshots and trees used as test inputs -/

/-- A snapshot on `master...origin/master`, clean and in sync, whose
computed version tag `v1.0.0` is NOT in the (empty) tag set. -/
def infoM0 : Info :=
  { path := "/w/m", fmt_path := "~/w/m", origin_url := some "github.com/a/m.git",
    tags := some [], branch := "master...origin/master", status := [],
    ahead_behind := some (0, 0),
    package := some { name := some "m", version := some "1.0.0", nopack := false,
                      dependencies := [], devDependencies := [] },
    package_lock := none }

/-- A clean snapshot that is strictly behind its upstream (merge candidate). -/
def infoMerge : Info :=
  { path := "/w/a", fmt_path := "~/w/a", origin_url := some "github.com/a/a.git",
    tags := some [], branch := "main...origin/main", status := [],
    ahead_behind := some (0, 3),
    package := some { name := some "a", version := some "0.1.0", nopack := false,
                      dependencies := [], devDependencies := [] },
    package_lock := none }

/-- A snapshot that is strictly ahead of its upstream (push candidate). -/
def infoPush : Info :=
  { path := "/w/b", fmt_path := "~/w/b", origin_url := some "github.com/a/b.git",
    tags := some [], branch := "main...origin/main", status := [],
    ahead_behind := some (2, 0),
    package := some { name := some "b", version := some "0.1.0", nopack := false,
                      dependencies := [], devDependencies := [] },
    package_lock := none }

/-- A module directory: contains `.git` and `package.json`. -/
def moduleDir : FSTree := .dir [(".git", .file), ("package.json", .file)]

/-- A filesystem in which module `A` physically contains module `A/B`. -/
def fsC2 : FSTree :=
  .dir [("A", .dir [(".git", .file), ("package.json", .file),
                    ("B", .dir [(".git", .file), ("package.json", .file)])])]

/-- A container directory holding two sibling modules `a` and `b`. -/
def twoModulesDir : FSTree := .dir [("a", moduleDir), ("b", moduleDir)]

/-- A snapshot whose manifest declares the name `"B"` both as a regular and
as a development dependency. -/
def infoA9 : Info :=
  { path := "/w/A", fmt_path := "~/w/A", origin_url := none, tags := some [],
    branch := "master...origin/master", status := [], ahead_behind := some (0, 0),
    package := some { name := some "A", version := some "1.0.0", nopack := false,
                      dependencies := ["B"], devDependencies := ["B"] },
    package_lock := none }

/-- A discovered snapshot whose manifest name is `"B"`. -/
def infoB9 : Info :=
  { path := "/w/B", fmt_path := "~/w/B", origin_url := none, tags := some [],
    branch := "master...origin/master", status := [], ahead_behind := some (0, 0),
    package := some { name := some "B", version := some "2.0.0", nopack := false,
                      dependencies := [], devDependencies := [] },
    package_lock := none }

/-! ## Helper lemmas -/

theorem flatten_map_nil {α β : Type} (l : List α) :
    (l.map (fun _ => ([] : List β))).flatten = [] := by
  induction l with
  | nil => rfl
  | cons x xs ih => simp [ih]

theorem if_else_false (b x : Bool) : (if b then x else false) = (b && x) := by
  cases b <;> simp

/-! ## Claim theorems -/

/-- C8: for every working-tree status entry, the reported flag equals the
(2-padded) last flag in the fixed evaluation order C, D, I, M, ?? (new),
R, T whose predicate matches; in particular an entry that is both
modified and new (and neither renamed nor type-changed) reports the new
flag `??`. -/
theorem getStatusFlag_last_match :
    (∀ c d i m n r t : Bool,
      getStatusFlag ⟨c, d, i, m, n, r, t⟩ = padStart2 (lastMatchingFlag ⟨c, d, i, m, n, r, t⟩))
    ∧ getStatusFlag ⟨false, false, false, true, true, false, false⟩ = "??" := by
  constructor
  · decide
  · rfl

/-- C6: `getCurrentAheadBehind` returns the empty object (modelled `none`)
if and only if HEAD's target commit or its upstream's target commit did
not resolve; in every other case it returns `some (ahead, behind)`, a
pair of `Nat`s (non-negative by type), never zeroes substituted for an
unresolved pairing. -/
theorem getCurrentAheadBehind_none_iff :
    ∀ (g : String → String → Nat × Nat) (h u : Option String),
      getCurrentAheadBehind g h u = none ↔ h = none ∨ u = none := by
  intro g h u
  cases h <;> cases u <;> simp [getCurrentAheadBehind]

/-- C10: no snapshot is ever selected by both the merge predicate and the
push predicate: merge requires `ahead == 0` and `behind > 0` while push
requires `ahead > 0` and `behind == 0`. -/
theorem mergePredicate_pushPredicate_exclusive :
    ∀ m : Info, (mergePredicate m && pushPredicate m) = false := by
  intro m
  cases hab : m.ahead_behind with
  | none => simp [mergePredicate, pushPredicate, hab]
  | some ab =>
    by_cases h : ab.1 = 0
    · simp [mergePredicate, pushPredicate, hab, h]
    · simp [mergePredicate, pushPredicate, hab, h]

/-- C4: the merge predicate selects a snapshot only if the branch string
splits into exactly a local and an upstream part, the working-tree
status is empty, and the ahead/behind pair resolved with `behind > 0`
and `ahead = 0`. -/
theorem mergePredicate_only_if :
    ∀ m : Info, mergePredicate m = true →
      (splitDots m.branch.data).length = 2 ∧ m.status = [] ∧
      ∃ a b : Nat, m.ahead_behind = some (a, b) ∧ 0 < b ∧ a = 0 := by
  intro m h
  simp only [mergePredicate, Bool.and_eq_true] at h
  obtain ⟨⟨⟨h1, h2⟩, h3⟩, h4⟩ := h
  refine ⟨by simpa using h1, List.isEmpty_iff.mp h2, ?_⟩
  cases hab : m.ahead_behind with
  | none => rw [hab] at h3; simp at h3
  | some ab =>
    rw [hab] at h3 h4
    exact ⟨ab.1, ab.2, by simp [hab], by simpa using h3, by simpa using h4⟩

/-- Witness for C4: the merge predicate holds of the concrete behind-only
snapshot `infoMerge`, and the extracted conditions hold there. -/
theorem mergePredicate_only_if_witness :
    (splitDots infoMerge.branch.data).length = 2 ∧ infoMerge.status = [] ∧
    ∃ a b : Nat, infoMerge.ahead_behind = some (a, b) ∧ 0 < b ∧ a = 0 :=
  mergePredicate_only_if infoMerge (by decide)

/-- C5: the push predicate selects a snapshot only if the branch string
splits into exactly a local and an upstream part and the ahead/behind
pair resolved with `ahead > 0` and `behind = 0`. -/
theorem pushPredicate_only_if :
    ∀ m : Info, pushPredicate m = true →
      (splitDots m.branch.data).length = 2 ∧
      ∃ a b : Nat, m.ahead_behind = some (a, b) ∧ 0 < a ∧ b = 0 := by
  intro m h
  simp only [pushPredicate, Bool.and_eq_true] at h
  obtain ⟨⟨h1, h2⟩, h3⟩ := h
  refine ⟨by simpa using h1, ?_⟩
  cases hab : m.ahead_behind with
  | none => rw [hab] at h2; simp at h2
  | some ab =>
    rw [hab] at h2 h3
    exact ⟨ab.1, ab.2, by simp [hab], by simpa using h2, by simpa using h3⟩

/-- Witness for C5: the push predicate holds of the concrete ahead-only
snapshot `infoPush`, and the extracted conditions hold there. -/
theorem pushPredicate_only_if_witness :
    (splitDots infoPush.branch.data).length = 2 ∧
    ∃ a b : Nat, infoPush.ahead_behind = some (a, b) ∧ 0 < a ∧ b = 0 :=
  pushPredicate_only_if infoPush (by decide)

/-- Counterexample to C1 as stated: `infoM0` is clean, in sync, on
`master...origin/master`, not excluded from distribution, and its
computed version tag `v1.0.0` is absent from its tag set; the claim's
reading of the tag conjunct (absence short-circuits to true, the module
proceeds) would select it, but the dist predicate of the code evaluates
the `_.switch` default `false` and skips it. -/
theorem distPredicate_tag_absent_cex :
    distPredicateClaimed (fun _ _ => false) infoM0 = true
    ∧ distPredicate (fun _ _ => false) infoM0 = false := by
  constructor
  · decide
  · decide

/-- C1 (amended): the `descendantOfHead` check is performed only when the
computed version tag `v<version>` is in the module's tag set — when the
tag is absent the dist predicate is `false` regardless of the oracle
(the module is skipped, not passed through) — and a selected module
always has the tag present with the descendant check returning true. -/
theorem distPredicate_tag_gate :
    ∀ (d d' : String → String → Bool) (m : Info),
      ((m.tags.getD []).contains m.semver = false → distPredicate d m = false)
      ∧ (distPredicate d m = true →
          (m.tags.getD []).contains m.semver = true ∧ d m.semver m.path = true)
      ∧ ((m.tags.getD []).contains m.semver = false →
          distPredicate d m = distPredicate d' m) := by
  intro d d' m
  refine ⟨fun h => ?_, fun h => ?_, fun h => ?_⟩
  · simp only [distPredicate, if_else_false]
    rw [h]
    simp
  · simp only [distPredicate, if_else_false, Bool.and_eq_true] at h
    exact h.1.1.1.1.2
  · simp only [distPredicate, if_else_false]
    rw [h]
    simp

/-- Witness for C1 (amended): at the concrete snapshot `infoM0` the version
tag is absent and the dist predicate is false. -/
theorem distPredicate_tag_gate_witness :
    distPredicate (fun _ _ => false) infoM0 = false :=
  (distPredicate_tag_gate (fun _ _ => false) (fun _ _ => true) infoM0).1 (by decide)

/-- C7: under the dry-run flag the push, install, link and dist commands
produce no effect (no file write, no process spawn, no symlink
removal/creation) while the informational output is unchanged for push,
install and link, and dist prints one would-be `"+ <name>@<next>"` line
per selected module — the same number of lines as the non-dry-run
publish path. -/
theorem dry_run_no_effects :
    ∀ (desc : String → String → Bool) (semverInc : Option String → String → Option String)
      (publishOut : DistItem → String) (infos : List Info) (versionBump : String),
      (pushRun infos true).1 = []
      ∧ (pushRun infos true).2 = (pushRun infos false).2
      ∧ (installRun infos true).1 = []
      ∧ (installRun infos true).2 = (installRun infos false).2
      ∧ (linkRun infos true).1 = []
      ∧ (linkRun infos true).2 = (linkRun infos false).2
      ∧ (distRun desc semverInc publishOut infos versionBump true).1 = []
      ∧ (distRun desc semverInc publishOut infos versionBump true).2
          = (infos.filter (distPredicate desc)).map
              (fun m => "+ " ++ (bumpVersion semverInc versionBump true m).1.vmodule)
      ∧ (distRun desc semverInc publishOut infos versionBump true).2.length
          = (distRun desc semverInc publishOut infos versionBump false).2.length := by
  intro desc semverInc publishOut infos versionBump
  refine ⟨?_, rfl, ?_, rfl, rfl, rfl, ?_, ?_, ?_⟩
  · simp [pushRun, flatten_map_nil]
  · simp [installRun, flatten_map_nil]
  · simp [distRun, bumpVersion, List.map_map, Function.comp, flatten_map_nil]
  · simp [distRun, List.map_map, Function.comp]
  · simp [distRun, List.map_map]

theorem splitAtChar_of_not_mem (c : Char) (l : List Char) (h : c ∉ l) :
    splitAtChar c l = [l] := by
  induction l with
  | nil => rfl
  | cons x xs ih =>
    have hxc : ¬ x = c := fun he => h (he ▸ List.mem_cons_self x xs)
    have hrest : c ∉ xs := fun hm => h (List.mem_cons_of_mem x hm)
    rw [splitAtChar, if_neg hxc, ih hrest]

theorem splitAtChar_append (c : Char) (a b : List Char) (h : c ∉ a) :
    splitAtChar c (a ++ c :: b) = a :: splitAtChar c b := by
  induction a with
  | nil => simp [splitAtChar]
  | cons x xs ih =>
    have hxc : ¬ x = c := fun he => h (he ▸ List.mem_cons_self x xs)
    have hrest : c ∉ xs := fun hm => h (List.mem_cons_of_mem x hm)
    rw [List.cons_append, splitAtChar, if_neg hxc, ih hrest]

/-- Counterexample to C3 as stated: the remote URL
`https://github.com/chimaera/cli.git` is readable (the input is present)
and contains no credential segment, yet `getRemoteUrl` returns absent
(`url.split('@')[1]` is `undefined` when the URL has no `'@'`), so a
URL without a credential segment is NOT returned as a string. -/
theorem getRemoteUrl_no_at_cex :
    getRemoteUrl (some "https://github.com/chimaera/cli.git") = none := by
  decide

/-- C3 (amended): `getRemoteUrl` is absent when the remote or its URL
cannot be read, and also when the URL contains no `'@'`; when the URL
contains at least one `'@'` it returns the segment strictly between the
first and the second `'@'` — the whole remainder when there is only one
`'@'` — so the credential/user segment before the first `'@'` is
stripped (and anything after a second `'@'` is dropped).  Every URL with
at least one `'@'` decomposes uniquely as `a ++ "@" ++ b` with
`'@' ∉ a`, and `b` in turn either contains no `'@'` (third conjunct) or
decomposes as `b1 ++ "@" ++ b2` with `'@' ∉ b1` (fourth conjunct), so
the two conjuncts together cover that whole class. -/
theorem getRemoteUrl_amended :
    (getRemoteUrl none = none)
    ∧ (∀ u : String, '@' ∉ u.data → getRemoteUrl (some u) = none)
    ∧ (∀ a b : String, '@' ∉ a.data → '@' ∉ b.data →
        getRemoteUrl (some (a ++ "@" ++ b)) = some b)
    ∧ (∀ a b1 b2 : String, '@' ∉ a.data → '@' ∉ b1.data →
        getRemoteUrl (some (a ++ "@" ++ b1 ++ "@" ++ b2)) = some b1) := by
  refine ⟨rfl, fun u hu => ?_, fun a b ha hb => ?_, fun a b1 b2 ha hb1 => ?_⟩
  · simp [getRemoteUrl, splitAtChar_of_not_mem '@' u.data hu]
  · have hdata : (a ++ "@" ++ b).data = a.data ++ '@' :: b.data := by
      simp [String.data_append]
    simp [getRemoteUrl, hdata, splitAtChar_append '@' a.data b.data ha,
      splitAtChar_of_not_mem '@' b.data hb]
  · have hdata : (a ++ "@" ++ b1 ++ "@" ++ b2).data
        = a.data ++ '@' :: (b1.data ++ '@' :: b2.data) := by
      simp [String.data_append]
    simp [getRemoteUrl, hdata, splitAtChar_append '@' a.data _ ha,
      splitAtChar_append '@' b1.data b2.data hb1]

/-- Witness for C3 (amended): the ssh-style URL
`git@github.com:chimaera/cli.git` has its `git` credential segment
stripped, and the doubly-`'@'` URL `user@host@rest` yields the segment
`host` between the first two `'@'`s. -/
theorem getRemoteUrl_amended_witness :
    getRemoteUrl (some ("git" ++ "@" ++ "github.com:chimaera/cli.git"))
      = some "github.com:chimaera/cli.git"
    ∧ getRemoteUrl (some ("user" ++ "@" ++ "host" ++ "@" ++ "rest"))
      = some "host" :=
  ⟨getRemoteUrl_amended.2.2.1 "git" "github.com:chimaera/cli.git" (by decide) (by decide),
   getRemoteUrl_amended.2.2.2 "user" "host" "rest" (by decide) (by decide)⟩

theorem storeLookup_key (infos : List Info) (n : String) (b : Info)
    (h : storeLookup (mkStore infos) n = some b) : storeKey b = n := by
  unfold storeLookup at h
  cases hf : (mkStore infos).reverse.find? (fun e => e.1 == n) with
  | none => rw [hf] at h; simp at h
  | some e =>
    rw [hf] at h
    simp only [Option.map_some', Option.some.injEq] at h
    have hpred := List.find?_some hf
    have hmem : e ∈ mkStore infos := List.mem_reverse.mp (List.mem_of_find?_eq_some hf)
    obtain ⟨binfo, _, heq⟩ := List.mem_map.mp hmem
    rw [← heq] at hpred h
    rw [← h]
    exact eq_of_beq hpred

theorem count_filterMap_storeLookup (st : List (String × Info)) (n : String) (B : Info)
    (hkey : ∀ n' b, storeLookup st n' = some b → storeKey b = n')
    (h : storeLookup st n = some B) :
    ∀ l : List String, (l.filterMap (storeLookup st)).count B = l.count n := by
  intro l
  induction l with
  | nil => rfl
  | cons x xs ih =>
    rw [List.count_cons]
    cases hx : storeLookup st x with
    | none =>
      have hxn : (x == n) = false := by
        refine beq_eq_false_iff_ne.mpr (fun he => ?_)
        rw [he, h] at hx
        exact Option.noConfusion hx
      rw [List.filterMap_cons_none hx, ih, hxn]
      simp
    | some b =>
      rw [List.filterMap_cons_some hx, List.count_cons, ih]
      by_cases hbB : b = B
      · have hxn : x = n := by
          rw [hbB] at hx
          rw [← hkey x B hx, ← hkey n B h]
        rw [hbB, hxn]
        simp
      · have hxn : ¬ x = n := by
          intro he
          rw [he, h] at hx
          exact hbB (Option.some.inj hx).symm
        have h1 : (b == B) = false := beq_eq_false_iff_ne.mpr hbB
        have h2 : (x == n) = false := beq_eq_false_iff_ne.mpr hxn
        rw [h1, h2]

theorem filter_ne_filterMap {α β : Type} [BEq α] [LawfulBEq α] (f : α → Option β) (n : α)
    (hn : f n = none) : ∀ l : List α, (l.filter (fun k => k != n)).filterMap f = l.filterMap f := by
  intro l
  induction l with
  | nil => rfl
  | cons x xs ih =>
    by_cases hx : x = n
    · subst hx
      simp [List.filter_cons, List.filterMap_cons, hn, ih]
    · have hne : (x != n) = true := by simpa using hx
      cases hfx : f x with
      | none => simp [List.filter_cons, hne, List.filterMap_cons, hfx, ih]
      | some b => simp [List.filter_cons, hne, List.filterMap_cons, hfx, ih]

/-- C9 (amended): module `A`'s computed `symlinks` list is the
manifest-order lookup of `A`'s regular dependency keys followed by the
manifest-order lookup of its development dependency keys (first
conjunct: regular dependencies precede development dependencies, each
section in declared key order); a name that resolves to no discovered
module is excluded — deleting such a name from the declared keys leaves
the list unchanged (second conjunct); and whenever a name `n` resolves
in the store to the snapshot `B`, the list contains exactly one entry
referencing `B` per occurrence of `n` across the two maps — one when
`n` is declared in exactly one map, two when it is declared in both,
the maps being concatenated, not de-duplicated (third conjunct). -/
theorem symlinks_entries_spec :
    (∀ (infos : List Info) (A : Info),
      symlinks infos A
        = (dependencyKeys A).filterMap (storeLookup (mkStore infos))
          ++ (devDependencyKeys A).filterMap (storeLookup (mkStore infos)))
    ∧ (∀ (infos : List Info) (A : Info) (n : String),
        storeLookup (mkStore infos) n = none →
          symlinks infos A
            = ((depKeys A).filter (fun k => k != n)).filterMap (storeLookup (mkStore infos)))
    ∧ (∀ (infos : List Info) (A B : Info) (n : String),
        storeLookup (mkStore infos) n = some B →
          (symlinks infos A).count B
            = (dependencyKeys A).count n + (devDependencyKeys A).count n) := by
  refine ⟨fun infos A => ?_, fun infos A n h => ?_, fun infos A B n h => ?_⟩
  · unfold symlinks depKeys
    exact List.filterMap_append _ _ _
  · unfold symlinks
    exact (filter_ne_filterMap (storeLookup (mkStore infos)) n h (depKeys A)).symm
  · unfold symlinks depKeys
    rw [List.filterMap_append, List.count_append,
      count_filterMap_storeLookup (mkStore infos) n B (storeLookup_key infos) h,
      count_filterMap_storeLookup (mkStore infos) n B (storeLookup_key infos) h]

/-- Witness for C9 (amended): with discovered snapshots `[infoA9, infoB9]`,
the unresolved name `"Z"` can be deleted from the declared keys without
changing the symlinks list, and the name `"B"` (declared in both maps,
resolving to `infoB9`) yields one entry per occurrence. -/
theorem symlinks_entries_spec_witness :
    symlinks [infoA9, infoB9] infoA9
      = ((depKeys infoA9).filter (fun k => k != "Z")).filterMap
          (storeLookup (mkStore [infoA9, infoB9]))
    ∧ (symlinks [infoA9, infoB9] infoA9).count infoB9
      = (dependencyKeys infoA9).count "B" + (devDependencyKeys infoA9).count "B" :=
  ⟨symlinks_entries_spec.2.1 [infoA9, infoB9] infoA9 "Z" (by decide),
   symlinks_entries_spec.2.2 [infoA9, infoB9] infoA9 infoB9 "B" (by decide)⟩

/-- Counterexample to C9 as stated: `infoA9`'s manifest declares a regular
and a development dependency on the name `"B"`, `infoB9` is a discovered
module with manifest name `"B"`, and `infoA9`'s computed symlinks list
contains TWO entries referencing `infoB9`'s snapshot, not exactly one. -/
theorem symlinks_two_entries_cex :
    Info.module infoB9 = some "B"
    ∧ "B" ∈ dependencyKeys infoA9
    ∧ "B" ∈ devDependencyKeys infoA9
    ∧ symlinks [infoA9, infoB9] infoA9 = [infoB9, infoB9]
    ∧ (symlinks [infoA9, infoB9] infoA9).count infoB9 ≠ 1 := by
  refine ⟨rfl, by decide, by decide, by decide, by decide⟩

theorem mem_jsUniqAux {α : Type} [BEq α] [LawfulBEq α] (a : α) :
    ∀ (l seen : List α), a ∈ jsUniqAux seen l ↔ a ∈ l ∧ a ∉ seen := by
  intro l
  induction l with
  | nil => intro seen; simp [jsUniqAux]
  | cons x xs ih =>
    intro seen
    rw [jsUniqAux]
    by_cases hx : seen.contains x
    · have hxseen : x ∈ seen := by simpa using hx
      rw [if_pos hx, ih]
      constructor
      · rintro ⟨hmem, hns⟩
        exact ⟨List.mem_cons_of_mem x hmem, hns⟩
      · rintro ⟨hmem, hns⟩
        rcases List.mem_cons.mp hmem with he | hmem2
        · exact absurd (he ▸ hxseen) hns
        · exact ⟨hmem2, hns⟩
    · have hxseen : x ∉ seen := fun hs => hx (by simpa using hs)
      rw [if_neg hx]
      constructor
      · intro hmem
        rcases List.mem_cons.mp hmem with he | hmem2
        · cases he
          exact ⟨List.mem_cons_self _ _, hxseen⟩
        · rw [ih] at hmem2
          obtain ⟨h1, h2⟩ := hmem2
          exact ⟨List.mem_cons_of_mem x h1, fun hs => h2 (List.mem_cons_of_mem x hs)⟩
      · rintro ⟨hmem, hns⟩
        rcases List.mem_cons.mp hmem with he | hmem2
        · exact he ▸ List.mem_cons_self _ _
        · by_cases hax : a = x
          · exact hax ▸ List.mem_cons_self _ _
          · refine List.mem_cons_of_mem x ((ih (x :: seen)).mpr ⟨hmem2, fun hs => ?_⟩)
            rcases List.mem_cons.mp hs with h | h
            · exact hax h
            · exact hns h

theorem mem_jsUniq {α : Type} [BEq α] [LawfulBEq α] (a : α) (l : List α) :
    a ∈ jsUniq l ↔ a ∈ l := by
  rw [jsUniq, mem_jsUniqAux]
  simp

theorem mem_findModulesKids (es : List (String × FSTree)) (p q : List String) :
    q ∈ findModulesKids es p ↔ ∃ e ∈ es, q ∈ findModulesGo e.2 (p ++ [e.1]) := by
  induction es with
  | nil => simp [findModulesKids]
  | cons e rest ih =>
    rw [findModulesKids, List.mem_append, ih]
    constructor
    · rintro (h | ⟨f, hf, hq⟩)
      · exact ⟨e, List.mem_cons_self e rest, h⟩
      · exact ⟨f, List.mem_cons_of_mem e hf, hq⟩
    · rintro ⟨f, hf, hq⟩
      rcases List.mem_cons.mp hf with he | hf2
      · exact Or.inl (he ▸ hq)
      · exact Or.inr ⟨f, hf2, hq⟩

theorem sizeOf_snd_lt_dir (es : List (String × FSTree)) (e : String × FSTree)
    (he : e ∈ es) : sizeOf e.2 < sizeOf (FSTree.dir es) := by
  have h1 : sizeOf e < sizeOf es := List.sizeOf_lt_of_mem he
  obtain ⟨n, t⟩ := e
  simp only [Prod.mk.sizeOf_spec] at h1
  simp only [FSTree.dir.sizeOf_spec]
  omega

theorem findModulesGo_anc_aux :
    ∀ (N : Nat) (t : FSTree), sizeOf t ≤ N → ∀ p q, q ∈ findModulesGo t p → p <+: q := by
  intro N
  induction N with
  | zero =>
    intro t ht
    cases t <;> simp_arith at ht
  | succ N ih =>
    intro t ht p q hq
    cases t with
    | file => simp [findModulesGo] at hq
    | dir es =>
      rw [findModulesGo] at hq
      by_cases hmod :
          ((es.map Prod.fst).contains ".git" && (es.map Prod.fst).contains "package.json") = true
      · rw [if_pos hmod] at hq
        simp at hq
        exact hq ▸ List.prefix_rfl
      · rw [if_neg hmod] at hq
        rw [mem_jsUniq, mem_findModulesKids] at hq
        obtain ⟨e, he, hq'⟩ := hq
        have hsz : sizeOf e.2 ≤ N := by
          have h1 := sizeOf_snd_lt_dir es e he
          omega
        have hpa : p <+: p ++ [e.1] := ⟨[e.1], rfl⟩
        exact hpa.trans (ih e.2 hsz (p ++ [e.1]) q hq')

theorem findModulesGo_anc (t : FSTree) (p q : List String)
    (h : q ∈ findModulesGo t p) : p <+: q :=
  findModulesGo_anc_aux (sizeOf t) t (Nat.le_refl _) p q h

theorem nodupKeys_assoc (n : String) (t1 t2 : FSTree) :
    ∀ es : List (String × FSTree), nodupKeys (es.map Prod.fst) = true →
      (n, t1) ∈ es → (n, t2) ∈ es → t1 = t2 := by
  intro es
  induction es with
  | nil => intro _ h1; simp at h1
  | cons e rest ih =>
    intro hnd h1 h2
    rw [List.map_cons, nodupKeys, Bool.and_eq_true] at hnd
    obtain ⟨hc, hrest⟩ := hnd
    have hc2 : e.1 ∉ rest.map Prod.fst := by
      intro hm
      have hct : (rest.map Prod.fst).contains e.1 = true := by simpa using hm
      rw [hct] at hc
      simp at hc
    rcases List.mem_cons.mp h1 with he1 | h1r <;> rcases List.mem_cons.mp h2 with he2 | h2r
    · rw [← he1] at he2
      injection he2 with hn ht
      exact ht.symm
    · exfalso
      apply hc2
      rw [← he1]
      exact List.mem_map.mpr ⟨(n, t2), h2r, rfl⟩
    · exfalso
      apply hc2
      rw [← he2]
      exact List.mem_map.mpr ⟨(n, t1), h1r, rfl⟩
    · exact ih hrest h1r h2r

theorem wfKids_mem (es : List (String × FSTree)) (hwf : wfKids es = true)
    (e : String × FSTree) (he : e ∈ es) : wfFS e.2 = true := by
  induction es with
  | nil => simp at he
  | cons f rest ih =>
    rw [wfKids, Bool.and_eq_true] at hwf
    rcases List.mem_cons.mp he with hef | her
    · exact hef ▸ hwf.1
    · exact ih hwf.2 her

theorem findModulesGo_no_nest_aux :
    ∀ (N : Nat) (t : FSTree), sizeOf t ≤ N → wfFS t = true →
      ∀ p q r, q ∈ findModulesGo t p → r ∈ findModulesGo t p → q ≠ r → ¬ q <+: r := by
  intro N
  induction N with
  | zero =>
    intro t ht
    cases t <;> simp_arith at ht
  | succ N ih =>
    intro t ht hwf p q r hq hr hne hqr
    cases t with
    | file => simp [findModulesGo] at hq
    | dir es =>
      rw [findModulesGo] at hq hr
      by_cases hmod :
          ((es.map Prod.fst).contains ".git" && (es.map Prod.fst).contains "package.json") = true
      · rw [if_pos hmod] at hq hr
        simp at hq hr
        exact hne (hq.trans hr.symm)
      · rw [if_neg hmod] at hq hr
        rw [mem_jsUniq, mem_findModulesKids] at hq hr
        obtain ⟨e1, he1, hq'⟩ := hq
        obtain ⟨e2, he2, hr'⟩ := hr
        rw [wfFS, Bool.and_eq_true] at hwf
        obtain ⟨hnd, hkids⟩ := hwf
        by_cases hname : e1.1 = e2.1
        · have hsub : e1.2 = e2.2 := by
            refine nodupKeys_assoc e1.1 e1.2 e2.2 es hnd ?_ ?_
            · simpa using he1
            · rw [hname]
              simpa using he2
          have hsz : sizeOf e1.2 ≤ N := by
            have h1 := sizeOf_snd_lt_dir es e1 he1
            omega
          have hr'' : r ∈ findModulesGo e1.2 (p ++ [e1.1]) := by
            rw [hsub, hname]
            exact hr'
          exact ih e1.2 hsz (wfKids_mem es hkids e1 he1) (p ++ [e1.1]) q r hq' hr'' hne hqr
        · have hq2 : p ++ [e1.1] <+: q := findModulesGo_anc e1.2 (p ++ [e1.1]) q hq'
          have hr2 : p ++ [e2.1] <+: r := findModulesGo_anc e2.2 (p ++ [e2.1]) r hr'
          have h3 : p ++ [e1.1] <+: r := hq2.trans hqr
          have heq : p ++ [e1.1] = p ++ [e2.1] := by
            rcases List.prefix_or_prefix_of_prefix h3 hr2 with hc | hc
            · exact List.IsPrefix.eq_of_length hc (by simp)
            · exact (List.IsPrefix.eq_of_length hc (by simp)).symm
          have := List.append_cancel_left heq
          simp at this
          exact hname this

/-- C2 (amended): below a single root directory (with distinct entry names
per directory, as on a real filesystem) the module locator never returns
a path that is a strict descendant of another returned path — recursion
stops at a classified module.  The claim as stated over arbitrary
root-path SETS fails: a root lying inside another root's module is
returned alongside it (see the counterexample). -/
theorem findModulesGo_no_nested (t : FSTree) (p q r : List String) (hwf : wfFS t = true)
    (hq : q ∈ findModulesGo t p) (hr : r ∈ findModulesGo t p) (hne : q ≠ r) :
    ¬ q <+: r :=
  findModulesGo_no_nest_aux (sizeOf t) t (Nat.le_refl _) hwf p q r hq hr hne

/-- Witness for C2 (amended): scanning the concrete two-module container
from the root yields `["a"]` and `["b"]`, and neither is an ancestor of
the other. -/
theorem findModulesGo_no_nested_witness : ¬ (["a"] : List String) <+: ["b"] :=
  findModulesGo_no_nested twoModulesDir [] ["a"] ["b"] (by decide) (by decide) (by decide)
    (by decide)

/-- Counterexample to C2 as stated: with the root set `[A, A/B]` — the
second root lying inside the module at the first — `findModules` returns
both `A` and its strict descendant `A/B`. -/
theorem findModules_nested_cex :
    (["A"] : List String) ∈ findModules fsC2 [["A"], ["A", "B"]]
    ∧ (["A", "B"] : List String) ∈ findModules fsC2 [["A"], ["A", "B"]]
    ∧ (["A"] : List String) ≠ ["A", "B"]
    ∧ (["A"] : List String) <+: ["A", "B"] := by
  refine ⟨by decide, by decide, by decide, ⟨["B"], rfl⟩⟩

end Chimaera
